import Mathlib

/-!
# Worker pool of `counter/1.go`

A shallow embedding of the Go program: the pool (`NewPool`, `Pool.Run`,
`Pool.worker`), the result loop of `main` and the line reader (`startReader`).

The goroutines are modelled by a small-step semantics.  A state holds the
program counter of `Pool.Run`, of every worker and of `main`; a scheduler
choice (`Action`) names the goroutine that moves next, and `step` returns
`none` when that goroutine is blocked.  Both channels of the pool are
unbuffered, so a send and its receive are one joint step.
-/

namespace Counter

/-! ## Data model -/

/-- Go's `int`, taken at 64 bits: the two's-complement wrap-around of a sum. -/
def wrapInt (n : Int) : Int :=
  (n + 9223372036854775808) % 18446744073709551616 - 9223372036854775808

/-- `type WordsCounter func(url, word string) (int, error)`; an error is kept as its text. -/
abbrev WordsCounter := String → String → Except String Int

/-- `type Result struct { Url string; Count int }`. -/
structure Result where
  Url : String
  Count : Int
deriving DecidableEq, Repr

/-- An unbuffered Go channel holds no value; its state is whether it has been closed. -/
structure Chan where
  closed : Bool
deriving DecidableEq, Repr

/-- `type Pool struct`: `wg` is the counter of the `sync.WaitGroup`. -/
structure Pool where
  maxWorkers : Int
  wg : Int
  urls : Chan
  results : Chan
deriving DecidableEq, Repr

/-- `func NewPool(maxWorkers int) *Pool` (lines 31-38). -/
def NewPool (maxWorkers : Int) : Pool :=
  { maxWorkers := maxWorkers, wg := 0, urls := ⟨false⟩, results := ⟨false⟩ }

/-- Where `Pool.Run` stands (lines 40-57). -/
inductive RunPc where
  /-- line 42, `for url := range jobs`. -/
  | recvJob
  /-- line 52, blocked in `pool.urls <- url`. -/
  | sendUrl (url : String)
  /-- line 54, before `close(pool.urls)`. -/
  | closeUrls
  /-- line 55, in `pool.wg.Wait()`. -/
  | wait
  /-- line 56, before `close(pool.results)`. -/
  | closeResults
  /-- line 57, `Run` has returned. -/
  | returned
deriving DecidableEq, Repr

/-- Where one `Pool.worker` goroutine stands (lines 63-81). -/
inductive Worker where
  /-- line 67, blocked in `<-pool.urls`. -/
  | recvUrl
  /-- line 71, about to call `handler(url, "Go")`. -/
  | call (url : String)
  /-- line 76, blocked in `pool.results <- Result{...}`. -/
  | sendResult (r : Result)
  /-- the loop was left and the deferred `pool.wg.Done()` has run. -/
  | exited
deriving DecidableEq, Repr

/-- What `Pool.Run` does in its loop, in program order. -/
inductive Event where
  /-- lines 48-50: `i++`, `pool.wg.Add(1)`, `go pool.worker(countWords)`. -/
  | spawn
  /-- line 52: `pool.urls <- url`. -/
  | forward (url : String)
deriving DecidableEq, Repr

/-- The whole program: the pool, the goroutines and a record of what has happened. -/
structure State where
  pool : Pool
  /-- the values `Run` has still to receive from `jobs` before it is closed. -/
  jobs : List String
  run : RunPc
  /-- the local `i` of `Run`; it never exceeds the number of jobs received, so it stays
  far below the bound of Go's `int` and is kept without wrap-around. -/
  i : Int
  /-- the workers started so far, in the order of their `go` statements. -/
  workers : List Worker
  /-- the local `total` of `main`. -/
  total : Int
  /-- the loop of `main` over the results has ended (line 136 reached). -/
  mainDone : Bool
  /-- a run-time panic has happened (send on or close of a closed channel). -/
  panicked : Bool
  /-- history: what `Run` has done in its loop. -/
  trace : List Event
  /-- history: the urls a worker has taken from `pool.urls`. -/
  forwarded : List String
  /-- history: the results `main` has received (its `Count for` lines). -/
  emitted : List Result
  /-- history: the urls a worker has logged with their error (line 73). -/
  logged : List String
  /-- history: how often `close(pool.results)` has run. -/
  closes : Nat
deriving DecidableEq, Repr

/-- A scheduler choice: which goroutine takes its next step. -/
inductive Action where
  | run
  | worker (n : Nat)
  | main
deriving DecidableEq, Repr

/-- The state after `pool := NewPool(k)`, `go pool.Run(urls)` and `total := 0`,
with `jobs` the values the reader will send before closing its channel. -/
def init (maxWorkers : Int) (jobs : List String) : State :=
  { pool := NewPool maxWorkers, jobs := jobs, run := .recvJob, i := 0, workers := [],
    total := 0, mainDone := false, panicked := false, trace := [], forwarded := [],
    emitted := [], logged := [], closes := 0 }

/-! ## Steps -/

/-- One step of `Pool.Run` (lines 40-57). -/
def stepRun (s : State) : Option State :=
  match s.run with
  | .recvJob =>
    match s.jobs with
    | [] => some { s with run := .closeUrls }
    | url :: rest =>
      if url = "" then
        some { s with jobs := rest }
      else if s.i ≤ s.pool.maxWorkers then
        some { s with
          jobs := rest, i := s.i + 1,
          pool := { s.pool with wg := s.pool.wg + 1 },
          workers := s.workers ++ [Worker.recvUrl],
          trace := s.trace ++ [Event.spawn, Event.forward url],
          run := .sendUrl url }
      else
        some { s with jobs := rest, trace := s.trace ++ [Event.forward url], run := .sendUrl url }
  | .sendUrl _ => none
  | .closeUrls =>
    if s.pool.urls.closed then some { s with panicked := true }
    else some { s with pool := { s.pool with urls := ⟨true⟩ }, run := .wait }
  | .wait => if s.pool.wg = 0 then some { s with run := .closeResults } else none
  | .closeResults =>
    if s.pool.results.closed then some { s with panicked := true }
    else some { s with
      pool := { s.pool with results := ⟨true⟩ }, closes := s.closes + 1, run := .returned }
  | .returned => none

/-- One step of worker `n` running `pool.worker(handler)` (lines 63-81). A receive from
`pool.urls` is joint with the send of `Run`, a send on `pool.results` is joint with the
receive of `main` (lines 132-135). -/
def stepWorker (handler : WordsCounter) (s : State) (n : Nat) : Option State :=
  match s.workers[n]? with
  | none => none
  | some .recvUrl =>
    if s.pool.urls.closed then
      some { s with
        workers := s.workers.set n .exited, pool := { s.pool with wg := s.pool.wg - 1 } }
    else
      match s.run with
      | .sendUrl url =>
        some { s with
          run := .recvJob, workers := s.workers.set n (.call url),
          forwarded := s.forwarded ++ [url] }
      | _ => none
  | some (.call url) =>
    match handler url "Go" with
    | .error _ => some { s with workers := s.workers.set n .recvUrl, logged := s.logged ++ [url] }
    | .ok count => some { s with workers := s.workers.set n (.sendResult ⟨url, count⟩) }
  | some (.sendResult r) =>
    if s.pool.results.closed then some { s with panicked := true }
    else if s.mainDone then none
    else
      some { s with
        workers := s.workers.set n .recvUrl,
        total := wrapInt (s.total + r.Count),
        emitted := s.emitted ++ [r] }
  | some .exited => none

/-- The step of `main` that ends its loop: `range pool.Results()` sees the channel closed. -/
def stepMain (s : State) : Option State :=
  if s.mainDone then none
  else if s.pool.results.closed then some { s with mainDone := true }
  else none

/-- One step of the program; `countWords` is the handler `Run` passes to its workers
(line 50). Nothing moves after a panic. -/
def step (countWords : WordsCounter) (s : State) (a : Action) : Option State :=
  if s.panicked then none
  else
    match a with
    | .run => stepRun s
    | .worker n => stepWorker countWords s n
    | .main => stepMain s

/-- Run a schedule; `none` when it asks a blocked goroutine to move. -/
def exec (countWords : WordsCounter) : State → List Action → Option State
  | s, [] => some s
  | s, a :: rest =>
    match step countWords s a with
    | none => none
    | some s' => exec countWords s' rest

/-- The handler of the scenario: 3 for `http://a`, an error for every other url. -/
def fakeHandler : WordsCounter := fun url _ =>
  if url = "http://a" then .ok 3 else .error "connection refused"

/-- A schedule of the scenario that runs the program to its end. -/
def scenarioSchedule : List Action :=
  [.run, .worker 0, .worker 0, .worker 0, .run, .run, .worker 1, .worker 1,
   .run, .run, .worker 0, .worker 1, .run, .run, .main]

/-! ## Run's loop in program order, and what is observed of a run -/

/-- Lines 41-53 of `Pool.Run` in program order, from counter value `i` on: the events
of the loop over the received jobs when every send is taken. -/
def runLoop (maxWorkers : Int) : Int → List String → List Event
  | _, [] => []
  | i, url :: rest =>
    if url = "" then runLoop maxWorkers i rest
    else if i ≤ maxWorkers then
      Event.spawn :: Event.forward url :: runLoop maxWorkers (i + 1) rest
    else Event.forward url :: runLoop maxWorkers i rest

/-- The urls of the `forward` events, in order. -/
def forwards : List Event → List String
  | [] => []
  | Event.spawn :: es => forwards es
  | Event.forward url :: es => url :: forwards es

/-- The number of `spawn` events. -/
def spawns : List Event → Nat
  | [] => 0
  | Event.spawn :: es => spawns es + 1
  | Event.forward _ :: es => spawns es

/-- The non-empty jobs, in their order. -/
def nonEmpty (jobs : List String) : List String :=
  jobs.filter (fun url => decide (url ≠ ""))

/-- The url `Run` is blocked sending, if any. -/
def pending : RunPc → List String
  | .sendUrl url => [url]
  | _ => []

/-- How far `Run` has come: 0 in its loop, then one more for each later line. -/
def RunPc.stage : RunPc → Nat
  | .recvJob => 0
  | .sendUrl _ => 0
  | .closeUrls => 1
  | .wait => 2
  | .closeResults => 3
  | .returned => 4

/-- A worker that has not yet called `pool.wg.Done()`. -/
def Worker.active : Worker → Bool
  | .exited => false
  | _ => true

/-- The result a successful call of the handler on `url` yields (lines 71-79). -/
def outcome (handler : WordsCounter) (url : String) : List Result :=
  match handler url "Go" with
  | .ok count => [⟨url, count⟩]
  | .error _ => []

/-- The results of the urls of a list, one for each url whose call succeeds. -/
def outcomes (handler : WordsCounter) : List String → List Result
  | [] => []
  | url :: rest => outcome handler url ++ outcomes handler rest

/-- The result a worker has still to hand to `main`. -/
def inflight (handler : WordsCounter) : Worker → List Result
  | .call url => outcome handler url
  | .sendResult r => [r]
  | _ => []

/-- The results the workers of a list have still to hand to `main`. -/
def inflightAll (handler : WordsCounter) : List Worker → List Result
  | [] => []
  | w :: ws => inflight handler w ++ inflightAll handler ws

/-- The sum of the counts of a list of results, as a mathematical integer. -/
def countSum (rs : List Result) : Int :=
  (rs.map Result.Count).sum

/-- A worker started at each url of the list, which is then forwarded. -/
def spawnEach : List String → List Event
  | [] => []
  | url :: rest => Event.spawn :: Event.forward url :: spawnEach rest

/-- Each url of the list forwarded, no worker started. -/
def forwardEach : List String → List Event
  | [] => []
  | url :: rest => Event.forward url :: forwardEach rest

/-- An upper bound on the steps a worker can still take without a new job. -/
def Worker.weight : Worker → Nat
  | .recvUrl => 1
  | .call _ => 3
  | .sendResult _ => 2
  | .exited => 0

/-- The weight of the place `Run` stands at. -/
def RunPc.weight : RunPc → Nat
  | .recvJob => 4
  | .sendUrl _ => 7
  | .closeUrls => 3
  | .wait => 2
  | .closeResults => 1
  | .returned => 0

/-- A bound on the number of steps the program can still take. -/
def measure (s : State) : Nat :=
  5 * s.jobs.length + s.run.weight + (s.workers.map Worker.weight).sum
    + (if s.mainDone then 0 else 1) + (if s.panicked then 0 else 1)

/-- What holds in every state a run from `init k J` reaches. -/
structure Inv (handler : WordsCounter) (k : Int) (J : List String) (s : State) : Prop where
  maxW : s.pool.maxWorkers = k
  sound : s.panicked = false
  traceOk : runLoop k 0 J = s.trace ++ runLoop k s.i s.jobs
  fwdOk : forwards s.trace = s.forwarded ++ pending s.run
  spawnOk : (s.workers.length : Int) = s.i ∧ spawns s.trace = s.workers.length
  iOk : s.i = min ((forwards s.trace).length : Int) (max 0 (k + 1))
  wgOk : s.pool.wg = (s.workers.countP Worker.active : Int)
  resultsOk :
    (↑(outcomes handler s.forwarded) : Multiset Result)
      = ↑s.emitted + ↑(inflightAll handler s.workers)
  totalOk : s.total = wrapInt (countSum s.emitted)
  jobsOk : 1 ≤ s.run.stage → s.jobs = []
  urlsOk : s.pool.urls.closed = decide (2 ≤ s.run.stage)
  waitOk : 3 ≤ s.run.stage → s.pool.wg = 0
  closedOk : s.pool.results.closed = decide (4 ≤ s.run.stage)
  openOk : s.pool.urls.closed = false → ∀ w ∈ s.workers, w.active = true
  mainOk : s.mainDone = true → s.pool.results.closed = true
  closesOk : s.closes = if s.pool.results.closed then 1 else 0

/-! ## The line reader -/

/-- The error an `io.Reader` gives once its data is used up: `io.EOF`,
`io.ErrUnexpectedEOF`, or any other error, kept as its text. -/
inductive ReadErr where
  | EOF
  | ErrUnexpectedEOF
  | other (msg : String)
deriving DecidableEq, Repr

/-- An `io.Reader`: the text it delivers and the error that ends it. Go strings are
bytes; the text is taken as valid UTF-8, where the byte `\n` is the character `\n`. -/
structure Source where
  data : List Char
  err : ReadErr
deriving DecidableEq, Repr

/-- Go's `(*bufio.Reader).ReadString(delim)` on the unread text: the text up to and
including the first `delim` and no error, or, when the text ends first, what was read
and the reader's error. The third component is the text left unread. -/
def ReadString (delim : Char) (err : ReadErr) :
    List Char → List Char × Option ReadErr × List Char
  | [] => ([], some err, [])
  | c :: cs =>
    if c = delim then ([c], none, cs)
    else
      let r := ReadString delim err cs
      (c :: r.1, r.2.1, r.2.2)

/-- Go's `unicode.IsSpace`. -/
def isSpace (c : Char) : Bool :=
  c = '\t' || c = '\n' || c.toNat = 0x0B || c.toNat = 0x0C || c = '\r' || c = ' '
    || c.toNat = 0x85 || c.toNat = 0xA0 || c.toNat = 0x1680
    || (0x2000 ≤ c.toNat && c.toNat ≤ 0x200A)
    || c.toNat = 0x2028 || c.toNat = 0x2029 || c.toNat = 0x202F || c.toNat = 0x205F
    || c.toNat = 0x3000

/-- Go's `strings.TrimSpace`: the text without its leading and trailing white space. -/
def TrimSpace (s : List Char) : List Char :=
  ((s.dropWhile isSpace).reverse.dropWhile isSpace).reverse

/-- What `startReader` has done when it returns: the values sent on `channel` in order,
the errors logged, and whether the deferred `close(channel)` has run. -/
structure ReaderOut where
  sent : List String
  logged : List ReadErr
  closed : Bool
deriving DecidableEq, Repr

/-- The loop of `startReader` (lines 103-114) on the unread text; `none` when the
fuel runs out. -/
def startReaderLoop (err : ReadErr) : Nat → List Char → Option ReaderOut
  | 0, _ => none
  | fuel + 1, input =>
    let r := ReadString '\n' err input
    let url := String.mk (TrimSpace r.1)
    match r.2.1 with
    | none =>
      (startReaderLoop err fuel r.2.2).map fun out => { out with sent := url :: out.sent }
    | some e =>
      if e = ReadErr.EOF ∨ e = ReadErr.ErrUnexpectedEOF then some ⟨[url], [], true⟩
      else some ⟨[url], [e], true⟩

/-- `func startReader(source io.Reader, channel chan string)` (lines 100-115). Every
turn of the loop but the last reads at least one character, so the length of the text
plus one is fuel enough. -/
def startReader (source : Source) : Option ReaderOut :=
  startReaderLoop source.err (source.data.length + 1) source.data

/-- The pieces of a text that end at each `\n`, and last the text after the last `\n`,
which is empty when the text is empty or ends with `\n`. -/
def chunks : List Char → List (List Char)
  | [] => [[]]
  | c :: cs =>
    if c = '\n' then [c] :: chunks cs
    else
      match chunks cs with
      | [] => [[c]]
      | x :: xs => (c :: x) :: xs

/-- The lines of a text as the specification speaks of them: each line ends with its
terminator `\n`, only the last line may lack it, and a text that is empty or ends with
`\n` has no further line. -/
def inputLines : List Char → List (List Char)
  | [] => []
  | c :: cs =>
    if c = '\n' then [c] :: inputLines cs
    else
      match inputLines cs with
      | [] => [[c]]
      | x :: xs => (c :: x) :: xs

/-- The value `startReader` sends for a piece of text (line 105). -/
def lineValue (piece : List Char) : String :=
  String.mk (TrimSpace piece)

/-- The errors `startReader` logs for a reader that ends with `err` (lines 107-113). -/
def readerLog (err : ReadErr) : List ReadErr :=
  if err = ReadErr.EOF ∨ err = ReadErr.ErrUnexpectedEOF then [] else [err]

/-- The program of `main` on standard input `source` with flag `-k k`: the reader's
values are the jobs of the pool. -/
def mainInit (k : Int) (source : Source) : Option State :=
  (startReader source).map fun out => init k out.sent

/-- The jobs of the scenario. -/
def scenarioJobs : List String := ["http://a", "", "http://b"]

/-- The state the scenario ends in under `scenarioSchedule`. -/
def scenarioEnd : State :=
  { pool := { maxWorkers := 2, wg := 0, urls := ⟨true⟩, results := ⟨true⟩ },
    jobs := [], run := .returned, i := 2, workers := [.exited, .exited],
    total := 3, mainDone := true, panicked := false,
    trace := [.spawn, .forward "http://a", .spawn, .forward "http://b"],
    forwarded := ["http://a", "http://b"], emitted := [⟨"http://a", 3⟩],
    logged := ["http://b"], closes := 1 }

/-! ## Lemmas -/

theorem wrapInt_add_left (a b : Int) : wrapInt (wrapInt a + b) = wrapInt (a + b) := by
  unfold wrapInt; omega

theorem wrapInt_of_range (a : Int) (h1 : -9223372036854775808 ≤ a)
    (h2 : a < 9223372036854775808) : wrapInt a = a := by
  unfold wrapInt; omega

theorem getElem?_split {α : Type} : ∀ (l : List α) (n : Nat) (x : α), l[n]? = some x →
    ∃ pre post, l = pre ++ x :: post ∧ pre.length = n ∧ ∀ y, l.set n y = pre ++ y :: post
  | [], n, x, h => by simp at h
  | a :: l, 0, x, h => by
    simp at h
    exact ⟨[], l, by simp [h], rfl, fun y => by simp⟩
  | a :: l, n + 1, x, h => by
    simp at h
    obtain ⟨pre, post, h1, h2, h3⟩ := getElem?_split l n x h
    exact ⟨a :: pre, post, by simp [h1], by simp [h2], fun y => by simp [h3]⟩

theorem forwards_append (a b : List Event) : forwards (a ++ b) = forwards a ++ forwards b := by
  induction a with
  | nil => rfl
  | cons e es ih => cases e <;> simp [forwards, ih]

theorem spawns_append (a b : List Event) : spawns (a ++ b) = spawns a + spawns b := by
  induction a with
  | nil => simp [spawns]
  | cons e es ih =>
    cases e with
    | spawn => simp [spawns, ih]; omega
    | forward url => simp [spawns, ih]

theorem outcomes_append (h : WordsCounter) (a b : List String) :
    outcomes h (a ++ b) = outcomes h a ++ outcomes h b := by
  induction a with
  | nil => rfl
  | cons u us ih => simp [outcomes, ih]

theorem inflightAll_append (h : WordsCounter) (a b : List Worker) :
    inflightAll h (a ++ b) = inflightAll h a ++ inflightAll h b := by
  induction a with
  | nil => rfl
  | cons u us ih => simp [inflightAll, ih]

theorem countSum_append (a b : List Result) : countSum (a ++ b) = countSum a + countSum b := by
  simp [countSum]

theorem init_inv (h : WordsCounter) (k : Int) (J : List String) : Inv h k J (init k J) := by
  refine ⟨rfl, rfl, ?_, rfl, ?_, ?_, ?_, ?_, ?_, ?_, ?_, ?_, ?_, ?_, ?_, ?_⟩
  all_goals
    simp [init, NewPool, forwards, spawns, pending, RunPc.stage, outcomes, inflightAll,
      countSum, wrapInt]

theorem inv_recv_end (h : WordsCounter) (k : Int) (J : List String) (s : State)
    (hi : Inv h k J s) (hrun : s.run = .recvJob) (hjobs : s.jobs = []) :
    Inv h k J { s with run := .closeUrls } := by
  obtain ⟨maxW, sound, traceOk, fwdOk, spawnOk, iOk, wgOk, resultsOk, totalOk, jobsOk, urlsOk,
    waitOk, closedOk, openOk, mainOk, closesOk⟩ := hi
  simp only [hrun, pending, RunPc.stage, List.append_nil] at fwdOk jobsOk urlsOk waitOk closedOk
  refine ⟨maxW, sound, traceOk, ?_, spawnOk, iOk, wgOk, resultsOk, totalOk, ?_, ?_, ?_, ?_,
    openOk, mainOk, closesOk⟩
  · simpa [pending] using fwdOk
  · intro _; exact hjobs
  · simpa [RunPc.stage] using urlsOk
  · intro hst; simp [RunPc.stage] at hst
  · simpa [RunPc.stage] using closedOk

theorem inv_recv_skip (h : WordsCounter) (k : Int) (J : List String) (s : State)
    (rest : List String) (hi : Inv h k J s) (hrun : s.run = .recvJob)
    (hjobs : s.jobs = "" :: rest) : Inv h k J { s with jobs := rest } := by
  obtain ⟨maxW, sound, traceOk, fwdOk, spawnOk, iOk, wgOk, resultsOk, totalOk, jobsOk, urlsOk,
    waitOk, closedOk, openOk, mainOk, closesOk⟩ := hi
  simp only [hjobs, runLoop, if_true] at traceOk
  refine ⟨maxW, sound, traceOk, fwdOk, spawnOk, iOk, wgOk, resultsOk, totalOk, ?_, urlsOk,
    waitOk, closedOk, openOk, mainOk, closesOk⟩
  intro hst; simp [hrun, RunPc.stage] at hst

theorem inv_recv_spawn (h : WordsCounter) (k : Int) (J : List String) (s : State)
    (url : String) (rest : List String) (hi : Inv h k J s) (hrun : s.run = .recvJob)
    (hjobs : s.jobs = url :: rest) (hurl : ¬ url = "") (hle : s.i ≤ s.pool.maxWorkers) :
    Inv h k J { s with
      jobs := rest, i := s.i + 1,
      pool := { s.pool with wg := s.pool.wg + 1 },
      workers := s.workers ++ [Worker.recvUrl],
      trace := s.trace ++ [Event.spawn, Event.forward url],
      run := .sendUrl url } := by
  obtain ⟨maxW, sound, traceOk, fwdOk, spawnOk, iOk, wgOk, resultsOk, totalOk, jobsOk, urlsOk,
    waitOk, closedOk, openOk, mainOk, closesOk⟩ := hi
  simp only [hrun, pending, RunPc.stage, List.append_nil] at fwdOk jobsOk urlsOk waitOk closedOk
  rw [maxW] at hle
  simp only [hjobs, runLoop, hurl, hle, if_true, if_false] at traceOk
  refine ⟨maxW, sound, ?_, ?_, ?_, ?_, ?_, ?_, totalOk, ?_, ?_, ?_, ?_, ?_, mainOk, closesOk⟩
  · simpa using traceOk
  · simp [forwards_append, forwards, pending, fwdOk]
  · simp [spawns_append, spawns]; omega
  · simp only [forwards_append, forwards, List.length_append, List.length_cons,
      List.length_nil]
    push_cast
    omega
  · simp [List.countP_append, Worker.active]; omega
  · simpa [inflightAll_append, inflightAll, inflight] using resultsOk
  · intro hst; simp [RunPc.stage] at hst
  · simpa [RunPc.stage] using urlsOk
  · intro hst; simp [RunPc.stage] at hst
  · simpa [RunPc.stage] using closedOk
  · intro hopen w hw
    simp only [List.mem_append, List.mem_singleton] at hw
    rcases hw with hw | hw
    · exact openOk hopen w hw
    · subst hw; rfl

theorem inv_recv_send (h : WordsCounter) (k : Int) (J : List String) (s : State)
    (url : String) (rest : List String) (hi : Inv h k J s) (hrun : s.run = .recvJob)
    (hjobs : s.jobs = url :: rest) (hurl : ¬ url = "") (hle : ¬ s.i ≤ s.pool.maxWorkers) :
    Inv h k J { s with
      jobs := rest, trace := s.trace ++ [Event.forward url], run := .sendUrl url } := by
  obtain ⟨maxW, sound, traceOk, fwdOk, spawnOk, iOk, wgOk, resultsOk, totalOk, jobsOk, urlsOk,
    waitOk, closedOk, openOk, mainOk, closesOk⟩ := hi
  simp only [hrun, pending, RunPc.stage, List.append_nil] at fwdOk jobsOk urlsOk waitOk closedOk
  rw [maxW] at hle
  simp only [hjobs, runLoop, hurl, hle, if_true, if_false] at traceOk
  refine ⟨maxW, sound, ?_, ?_, ?_, ?_, wgOk, resultsOk, totalOk, ?_, ?_, ?_, ?_, openOk,
    mainOk, closesOk⟩
  · simpa using traceOk
  · simp [forwards_append, forwards, pending, fwdOk]
  · simpa [spawns_append, spawns] using spawnOk
  · simp only [forwards_append, forwards, List.length_append, List.length_cons,
      List.length_nil]
    push_cast
    omega
  · intro hst; simp [RunPc.stage] at hst
  · simpa [RunPc.stage] using urlsOk
  · intro hst; simp [RunPc.stage] at hst
  · simpa [RunPc.stage] using closedOk

theorem inv_close_urls (h : WordsCounter) (k : Int) (J : List String) (s : State)
    (hi : Inv h k J s) (hrun : s.run = .closeUrls) :
    Inv h k J { s with pool := { s.pool with urls := ⟨true⟩ }, run := .wait } := by
  obtain ⟨maxW, sound, traceOk, fwdOk, spawnOk, iOk, wgOk, resultsOk, totalOk, jobsOk, urlsOk,
    waitOk, closedOk, openOk, mainOk, closesOk⟩ := hi
  simp only [hrun, pending, RunPc.stage, List.append_nil] at fwdOk jobsOk urlsOk waitOk closedOk
  refine ⟨maxW, sound, traceOk, ?_, spawnOk, iOk, wgOk, resultsOk, totalOk, ?_, ?_, ?_, ?_,
    ?_, mainOk, closesOk⟩
  · simpa [pending] using fwdOk
  · intro _; exact jobsOk (by omega)
  · simp [RunPc.stage]
  · intro hst; simp [RunPc.stage] at hst
  · simpa [RunPc.stage] using closedOk
  · intro hopen; simp at hopen

theorem inv_wait (h : WordsCounter) (k : Int) (J : List String) (s : State)
    (hi : Inv h k J s) (hrun : s.run = .wait) (hwg : s.pool.wg = 0) :
    Inv h k J { s with run := .closeResults } := by
  obtain ⟨maxW, sound, traceOk, fwdOk, spawnOk, iOk, wgOk, resultsOk, totalOk, jobsOk, urlsOk,
    waitOk, closedOk, openOk, mainOk, closesOk⟩ := hi
  simp only [hrun, pending, RunPc.stage, List.append_nil] at fwdOk jobsOk urlsOk waitOk closedOk
  refine ⟨maxW, sound, traceOk, ?_, spawnOk, iOk, wgOk, resultsOk, totalOk, ?_, ?_, ?_, ?_,
    openOk, mainOk, closesOk⟩
  · simpa [pending] using fwdOk
  · intro _; exact jobsOk (by omega)
  · simpa [RunPc.stage] using urlsOk
  · intro _; exact hwg
  · simpa [RunPc.stage] using closedOk

theorem inv_close_results (h : WordsCounter) (k : Int) (J : List String) (s : State)
    (hi : Inv h k J s) (hrun : s.run = .closeResults) :
    Inv h k J { s with
      pool := { s.pool with results := ⟨true⟩ }, closes := s.closes + 1, run := .returned } := by
  obtain ⟨maxW, sound, traceOk, fwdOk, spawnOk, iOk, wgOk, resultsOk, totalOk, jobsOk, urlsOk,
    waitOk, closedOk, openOk, mainOk, closesOk⟩ := hi
  simp only [hrun, pending, RunPc.stage, List.append_nil] at fwdOk jobsOk urlsOk waitOk closedOk
  simp at closedOk
  refine ⟨maxW, sound, traceOk, ?_, spawnOk, iOk, wgOk, resultsOk, totalOk, ?_, ?_, ?_, ?_,
    ?_, ?_, ?_⟩
  · simpa [pending] using fwdOk
  · intro _; exact jobsOk (by omega)
  · simpa [RunPc.stage] using urlsOk
  · intro _; exact waitOk (by omega)
  · simp [RunPc.stage]
  · intro hopen; exact openOk hopen
  · intro _; rfl
  · simp [closesOk, closedOk]

theorem stepRun_inv (h : WordsCounter) (k : Int) (J : List String) (s s' : State)
    (hi : Inv h k J s) (hs : stepRun s = some s') : Inv h k J s' := by
  unfold stepRun at hs
  split at hs
  · rename_i hrun
    split at hs
    · rename_i hjobs
      cases hs
      exact inv_recv_end h k J s hi hrun hjobs
    · rename_i url rest hjobs
      split at hs
      · rename_i hurl
        cases hs
        subst hurl
        exact inv_recv_skip h k J s rest hi hrun hjobs
      · rename_i hurl
        split at hs
        · rename_i hle
          cases hs
          exact inv_recv_spawn h k J s url rest hi hrun hjobs hurl hle
        · rename_i hle
          cases hs
          exact inv_recv_send h k J s url rest hi hrun hjobs hurl hle
  · cases hs
  · rename_i hrun
    have hopen : s.pool.urls.closed = false := by
      have := hi.urlsOk; simpa [hrun, RunPc.stage] using this
    simp only [hopen, Bool.false_eq_true, if_false] at hs
    cases hs
    exact inv_close_urls h k J s hi hrun
  · rename_i hrun
    split at hs
    · rename_i hwg
      cases hs
      exact inv_wait h k J s hi hrun hwg
    · cases hs
  · rename_i hrun
    have hopen : s.pool.results.closed = false := by
      have := hi.closedOk; simpa [hrun, RunPc.stage] using this
    simp only [hopen, Bool.false_eq_true, if_false] at hs
    cases hs
    exact inv_close_results h k J s hi hrun
  · cases hs

theorem inv_worker_exit (h : WordsCounter) (k : Int) (J : List String) (s : State) (n : Nat)
    (hi : Inv h k J s) (hw : s.workers[n]? = some Worker.recvUrl)
    (hc : s.pool.urls.closed = true) :
    Inv h k J { s with
      workers := s.workers.set n .exited, pool := { s.pool with wg := s.pool.wg - 1 } } := by
  obtain ⟨maxW, sound, traceOk, fwdOk, spawnOk, iOk, wgOk, resultsOk, totalOk, jobsOk, urlsOk,
    waitOk, closedOk, openOk, mainOk, closesOk⟩ := hi
  obtain ⟨pre, post, hl, -, hset⟩ := getElem?_split _ _ _ hw
  simp only [hl, List.countP_append, List.countP_cons, Worker.active, inflightAll_append,
    inflightAll, inflight, List.length_append, List.length_cons] at wgOk resultsOk spawnOk
  refine ⟨maxW, sound, traceOk, fwdOk, ?_, iOk, ?_, ?_, totalOk, jobsOk, urlsOk, ?_, closedOk,
    ?_, mainOk, closesOk⟩
  · simpa [hset] using spawnOk
  · simp only [hset, List.countP_append, List.countP_cons, Worker.active]
    push_cast at wgOk ⊢
    simp at wgOk ⊢
    omega
  · simpa [hset, inflightAll_append, inflightAll, inflight] using resultsOk
  · intro hst
    have := waitOk hst
    simp at wgOk
    omega
  · intro hopen w hmem
    simp only [hset, List.mem_append, List.mem_cons] at hmem
    have hall := openOk hopen
    simp only [hl, List.mem_append, List.mem_cons] at hall
    rcases hmem with hm | hm | hm
    · exact hall w (Or.inl hm)
    · simp [hc] at hopen
    · exact hall w (Or.inr (Or.inr hm))

theorem mem_set_active (ws : List Worker) (n : Nat) (x y : Worker)
    (hw : ws[n]? = some x) (hall : ∀ w ∈ ws, w.active = true) (hy : y.active = true) :
    ∀ w ∈ ws.set n y, w.active = true := by
  obtain ⟨pre, post, hl, -, hset⟩ := getElem?_split _ _ _ hw
  intro w hmem
  simp only [hset, List.mem_append, List.mem_cons] at hmem
  simp only [hl, List.mem_append, List.mem_cons] at hall
  rcases hmem with hm | hm | hm
  · exact hall w (Or.inl hm)
  · rw [hm]; exact hy
  · exact hall w (Or.inr (Or.inr hm))

theorem countP_set_active (ws : List Worker) (n : Nat) (x y : Worker)
    (hw : ws[n]? = some x) (hx : x.active = true) (hy : y.active = true) :
    (ws.set n y).countP Worker.active = ws.countP Worker.active := by
  obtain ⟨pre, post, hl, -, hset⟩ := getElem?_split _ _ _ hw
  rw [hset, hl]
  simp [List.countP_append, List.countP_cons, hx, hy]

theorem inflightAll_set (h : WordsCounter) (ws : List Worker) (n : Nat) (x y : Worker)
    (hw : ws[n]? = some x) :
    (↑(inflightAll h ws) : Multiset Result) + ↑(inflight h y)
      = ↑(inflightAll h (ws.set n y)) + ↑(inflight h x) := by
  obtain ⟨pre, post, hl, -, hset⟩ := getElem?_split _ _ _ hw
  rw [hset, hl]
  simp only [inflightAll_append, inflightAll, ← Multiset.coe_add]
  abel

theorem inv_worker_take (h : WordsCounter) (k : Int) (J : List String) (s : State) (n : Nat)
    (url : String) (hi : Inv h k J s) (hw : s.workers[n]? = some Worker.recvUrl)
    (hrun : s.run = .sendUrl url) :
    Inv h k J { s with
      run := .recvJob, workers := s.workers.set n (.call url),
      forwarded := s.forwarded ++ [url] } := by
  obtain ⟨maxW, sound, traceOk, fwdOk, spawnOk, iOk, wgOk, resultsOk, totalOk, jobsOk, urlsOk,
    waitOk, closedOk, openOk, mainOk, closesOk⟩ := hi
  simp only [hrun, pending, RunPc.stage] at fwdOk jobsOk urlsOk waitOk closedOk
  have hset := inflightAll_set h s.workers n _ (.call url) hw
  simp only [inflight] at hset
  refine ⟨maxW, sound, traceOk, ?_, ?_, iOk, ?_, ?_, totalOk, ?_, ?_, ?_, ?_, ?_, mainOk,
    closesOk⟩
  · simpa [pending] using fwdOk
  · simpa using spawnOk
  · simp only [countP_set_active s.workers n _ (.call url) hw rfl rfl]
    exact wgOk
  · simp only [outcomes_append, outcomes, List.append_nil, ← Multiset.coe_add]
    rw [resultsOk, add_assoc, hset]
    simp
  · intro hst; simp [RunPc.stage] at hst
  · simpa [RunPc.stage] using urlsOk
  · intro hst; simp [RunPc.stage] at hst
  · simpa [RunPc.stage] using closedOk
  · intro hopen
    exact mem_set_active s.workers n _ _ hw (openOk hopen) rfl

theorem inv_worker_fail (h : WordsCounter) (k : Int) (J : List String) (s : State) (n : Nat)
    (url e : String) (hi : Inv h k J s) (hw : s.workers[n]? = some (Worker.call url))
    (hcall : h url "Go" = .error e) :
    Inv h k J { s with workers := s.workers.set n .recvUrl, logged := s.logged ++ [url] } := by
  obtain ⟨maxW, sound, traceOk, fwdOk, spawnOk, iOk, wgOk, resultsOk, totalOk, jobsOk, urlsOk,
    waitOk, closedOk, openOk, mainOk, closesOk⟩ := hi
  have hset := inflightAll_set h s.workers n _ .recvUrl hw
  simp only [inflight, outcome, hcall] at hset
  refine ⟨maxW, sound, traceOk, fwdOk, ?_, iOk, ?_, ?_, totalOk, jobsOk, urlsOk, waitOk,
    closedOk, ?_, mainOk, closesOk⟩
  · simpa using spawnOk
  · simp only [countP_set_active s.workers n _ .recvUrl hw rfl rfl]
    exact wgOk
  · rw [resultsOk]
    simpa using congrArg (fun m => (↑s.emitted : Multiset Result) + m) hset
  · intro hopen
    exact mem_set_active s.workers n _ _ hw (openOk hopen) rfl

theorem inv_worker_ok (h : WordsCounter) (k : Int) (J : List String) (s : State) (n : Nat)
    (url : String) (count : Int) (hi : Inv h k J s)
    (hw : s.workers[n]? = some (Worker.call url)) (hcall : h url "Go" = .ok count) :
    Inv h k J { s with workers := s.workers.set n (.sendResult ⟨url, count⟩) } := by
  obtain ⟨maxW, sound, traceOk, fwdOk, spawnOk, iOk, wgOk, resultsOk, totalOk, jobsOk, urlsOk,
    waitOk, closedOk, openOk, mainOk, closesOk⟩ := hi
  have hset := inflightAll_set h s.workers n _ (.sendResult ⟨url, count⟩) hw
  simp only [inflight, outcome, hcall] at hset
  refine ⟨maxW, sound, traceOk, fwdOk, ?_, iOk, ?_, ?_, totalOk, jobsOk, urlsOk, waitOk,
    closedOk, ?_, mainOk, closesOk⟩
  · simpa using spawnOk
  · simp only [countP_set_active s.workers n _ (.sendResult ⟨url, count⟩) hw rfl rfl]
    exact wgOk
  · rw [resultsOk]
    exact congrArg (fun m => (↑s.emitted : Multiset Result) + m) (add_right_cancel hset)
  · intro hopen
    exact mem_set_active s.workers n _ _ hw (openOk hopen) rfl

theorem inv_worker_emit (h : WordsCounter) (k : Int) (J : List String) (s : State) (n : Nat)
    (r : Result) (hi : Inv h k J s) (hw : s.workers[n]? = some (Worker.sendResult r)) :
    Inv h k J { s with
      workers := s.workers.set n .recvUrl,
      total := wrapInt (s.total + r.Count),
      emitted := s.emitted ++ [r] } := by
  obtain ⟨maxW, sound, traceOk, fwdOk, spawnOk, iOk, wgOk, resultsOk, totalOk, jobsOk, urlsOk,
    waitOk, closedOk, openOk, mainOk, closesOk⟩ := hi
  have hset := inflightAll_set h s.workers n _ .recvUrl hw
  simp only [inflight] at hset
  refine ⟨maxW, sound, traceOk, fwdOk, ?_, iOk, ?_, ?_, ?_, jobsOk, urlsOk, waitOk,
    closedOk, ?_, mainOk, closesOk⟩
  · simpa using spawnOk
  · simp only [countP_set_active s.workers n _ .recvUrl hw rfl rfl]
    exact wgOk
  · rw [resultsOk]
    simp only [← Multiset.coe_add] at hset ⊢
    rw [add_assoc, add_comm (↑[r] : Multiset Result), ← hset]
    simp
  · simp only [countSum_append, totalOk, wrapInt_add_left]
    simp [countSum]
  · intro hopen
    exact mem_set_active s.workers n _ _ hw (openOk hopen) rfl

theorem inv_main (h : WordsCounter) (k : Int) (J : List String) (s : State)
    (hi : Inv h k J s) (hc : s.pool.results.closed = true) :
    Inv h k J { s with mainDone := true } := by
  obtain ⟨maxW, sound, traceOk, fwdOk, spawnOk, iOk, wgOk, resultsOk, totalOk, jobsOk, urlsOk,
    waitOk, closedOk, openOk, mainOk, closesOk⟩ := hi
  exact ⟨maxW, sound, traceOk, fwdOk, spawnOk, iOk, wgOk, resultsOk, totalOk, jobsOk, urlsOk,
    waitOk, closedOk, openOk, fun _ => hc, closesOk⟩

theorem countP_active_pos (ws : List Worker) (n : Nat) (x : Worker)
    (hw : ws[n]? = some x) (hx : x.active = true) : 1 ≤ ws.countP Worker.active := by
  obtain ⟨pre, post, hl, -, -⟩ := getElem?_split _ _ _ hw
  rw [hl]
  simp only [List.countP_append, List.countP_cons, hx, if_true]
  omega

/-- While a worker is still running, the results channel is open. -/
theorem Inv.results_open (h : WordsCounter) (k : Int) (J : List String) (s : State)
    (hi : Inv h k J s) (n : Nat) (x : Worker) (hw : s.workers[n]? = some x)
    (hx : x.active = true) : s.pool.results.closed = false := by
  have hpos := countP_active_pos s.workers n x hw hx
  have hwg := hi.wgOk
  have hcl := hi.closedOk
  by_cases hst : 4 ≤ s.run.stage
  · have := hi.waitOk (by omega)
    omega
  · simpa [hst] using hcl

theorem stepWorker_inv (h : WordsCounter) (k : Int) (J : List String) (s s' : State) (n : Nat)
    (hi : Inv h k J s) (hs : stepWorker h s n = some s') : Inv h k J s' := by
  unfold stepWorker at hs
  split at hs
  · cases hs
  · rename_i hw
    split at hs
    · rename_i hc
      cases hs
      exact inv_worker_exit h k J s n hi hw hc
    · split at hs
      · rename_i url hrun
        cases hs
        exact inv_worker_take h k J s n url hi hw hrun
      · cases hs
  · rename_i url hw
    split at hs
    · rename_i e hcall
      cases hs
      exact inv_worker_fail h k J s n url e hi hw hcall
    · rename_i count hcall
      cases hs
      exact inv_worker_ok h k J s n url count hi hw hcall
  · rename_i r hw
    have hopen := hi.results_open h k J s n _ hw rfl
    simp only [hopen, Bool.false_eq_true, if_false] at hs
    split at hs
    · cases hs
    · cases hs
      exact inv_worker_emit h k J s n r hi hw
  · cases hs

theorem stepMain_inv (h : WordsCounter) (k : Int) (J : List String) (s s' : State)
    (hi : Inv h k J s) (hs : stepMain s = some s') : Inv h k J s' := by
  unfold stepMain at hs
  split at hs
  · cases hs
  · split at hs
    · rename_i hc
      cases hs
      exact inv_main h k J s hi hc
    · cases hs

theorem step_inv (h : WordsCounter) (k : Int) (J : List String) (s s' : State) (a : Action)
    (hi : Inv h k J s) (hs : step h s a = some s') : Inv h k J s' := by
  unfold step at hs
  split at hs
  · cases hs
  · cases a with
    | run => exact stepRun_inv h k J s s' hi hs
    | worker n => exact stepWorker_inv h k J s s' n hi hs
    | main => exact stepMain_inv h k J s s' hi hs

theorem exec_inv (h : WordsCounter) (k : Int) (J : List String) (sched : List Action) :
    ∀ (s s' : State), Inv h k J s → exec h s sched = some s' → Inv h k J s' := by
  induction sched with
  | nil =>
    intro s s' hi hs
    simp only [exec, Option.some.injEq] at hs
    exact hs ▸ hi
  | cons a rest ih =>
    intro s s' hi hs
    simp only [exec] at hs
    split at hs
    · cases hs
    · rename_i s1 hstep
      exact ih s1 s' (step_inv h k J s s1 a hi hstep) hs

/-- Every state a run reaches satisfies the invariant. -/
theorem reach_inv (h : WordsCounter) (k : Int) (J : List String) (sched : List Action)
    (s : State) (hs : exec h (init k J) sched = some s) : Inv h k J s :=
  exec_inv h k J sched (init k J) s (init_inv h k J) hs

/-! ### Every step uses up some of the measure -/

theorem weight_set (ws : List Worker) (n : Nat) (x y : Worker) (hw : ws[n]? = some x) :
    ((ws.set n y).map Worker.weight).sum + x.weight = (ws.map Worker.weight).sum + y.weight := by
  obtain ⟨pre, post, hl, -, hset⟩ := getElem?_split _ _ _ hw
  rw [hset, hl]
  simp only [List.map_append, List.map_cons, List.sum_append, List.sum_cons]
  omega

theorem stepRun_measure (s s' : State) (hp : s.panicked = false)
    (hs : stepRun s = some s') : measure s' < measure s := by
  unfold stepRun at hs
  split at hs
  · rename_i hrun
    split at hs
    · rename_i hjobs
      cases hs
      simp [measure, hrun, RunPc.weight]
    · rename_i url rest hjobs
      split at hs
      · cases hs
        simp [measure, hjobs]
      · split at hs
        · cases hs
          simp [measure, hjobs, hrun, RunPc.weight, Worker.weight]
          omega
        · cases hs
          simp [measure, hjobs, hrun, RunPc.weight]
          omega
  · cases hs
  · rename_i hrun
    split at hs
    · cases hs
      simp [measure, hp]
    · cases hs
      simp [measure, hrun, RunPc.weight]
  · rename_i hrun
    split at hs
    · cases hs
      simp [measure, hrun, RunPc.weight]
    · cases hs
  · rename_i hrun
    split at hs
    · cases hs
      simp [measure, hp]
    · cases hs
      simp [measure, hrun, RunPc.weight]
  · cases hs

theorem stepWorker_measure (h : WordsCounter) (s s' : State) (n : Nat)
    (hp : s.panicked = false) (hs : stepWorker h s n = some s') : measure s' < measure s := by
  unfold stepWorker at hs
  split at hs
  · cases hs
  · rename_i hw
    split at hs
    · cases hs
      have := weight_set s.workers n _ .exited hw
      simp only [Worker.weight] at this
      simp only [measure]
      omega
    · split at hs
      · rename_i url hrun
        cases hs
        have := weight_set s.workers n _ (.call url) hw
        simp only [Worker.weight] at this
        simp only [measure, hrun, RunPc.weight]
        omega
      · cases hs
  · rename_i url hw
    split at hs
    · cases hs
      have := weight_set s.workers n _ .recvUrl hw
      simp only [Worker.weight] at this
      simp only [measure]
      omega
    · rename_i count hcall
      cases hs
      have := weight_set s.workers n _ (.sendResult ⟨url, count⟩) hw
      simp only [Worker.weight] at this
      simp only [measure]
      omega
  · rename_i r hw
    split at hs
    · cases hs
      simp [measure, hp]
    · split at hs
      · cases hs
      · cases hs
        have := weight_set s.workers n _ .recvUrl hw
        simp only [Worker.weight] at this
        simp only [measure]
        omega
  · cases hs

theorem stepMain_measure (s s' : State) (hs : stepMain s = some s') :
    measure s' < measure s := by
  unfold stepMain at hs
  split at hs
  · cases hs
  · rename_i hm
    split at hs
    · cases hs
      simp [measure, hm]
    · cases hs

theorem step_measure (h : WordsCounter) (s s' : State) (a : Action)
    (hs : step h s a = some s') : measure s' < measure s := by
  unfold step at hs
  split at hs
  · cases hs
  · rename_i hp
    have hp' : s.panicked = false := by simpa using hp
    cases a with
    | run => exact stepRun_measure s s' hp' hs
    | worker n => exact stepWorker_measure h s s' n hp' hs
    | main => exact stepMain_measure s s' hs

/-- A schedule that runs has at most as many steps as the measure it started with. -/
theorem exec_measure (h : WordsCounter) (sched : List Action) :
    ∀ (s s' : State), exec h s sched = some s' → sched.length + measure s' ≤ measure s := by
  induction sched with
  | nil =>
    intro s s' hs
    simp only [exec, Option.some.injEq] at hs
    simp [hs]
  | cons a rest ih =>
    intro s s' hs
    simp only [exec] at hs
    split at hs
    · cases hs
    · rename_i s1 hstep
      have h1 := step_measure h s s1 a hstep
      have h2 := ih s1 s' hs
      simp only [List.length_cons]
      omega

/-! ### A run that has not ended can take a step -/

theorem exists_active (ws : List Worker) (hpos : 0 < ws.countP Worker.active) :
    ∃ (n : Nat) (w : Worker), ws[n]? = some w ∧ w.active = true := by
  obtain ⟨w, hmem, hact⟩ := List.countP_pos_iff.mp hpos
  obtain ⟨n, hn⟩ := List.getElem?_of_mem hmem
  exact ⟨n, w, hn, hact⟩

theorem exists_first (ws : List Worker) (hpos : 0 < ws.length) : ∃ w, ws[0]? = some w := by
  cases ws with
  | nil => simp at hpos
  | cons a t => exact ⟨a, by simp⟩

/-- A running worker can move unless it waits for a url that nobody sends. -/
theorem worker_progress (h : WordsCounter) (s : State) (n : Nat) (w : Worker)
    (hp : s.panicked = false) (hmain : s.mainDone = false)
    (hw : s.workers[n]? = some w) (hact : w.active = true)
    (hrecv : s.pool.urls.closed = true ∨ ∃ url, s.run = .sendUrl url) :
    ∃ s', step h s (.worker n) = some s' := by
  simp only [step, hp, Bool.false_eq_true, if_false]
  unfold stepWorker
  rw [hw]
  cases w with
  | recvUrl =>
    by_cases hc : s.pool.urls.closed = true
    · simp [hc]
    · rcases hrecv with hc' | ⟨url, hrun⟩
      · exact absurd hc' hc
      · simp [hc, hrun]
  | call url =>
    cases hcall : h url "Go" with
    | error e => simp only [hcall]; exact ⟨_, rfl⟩
    | ok count => simp only [hcall]; exact ⟨_, rfl⟩
  | sendResult r =>
    by_cases hc : s.pool.results.closed = true
    · simp [hc]
    · simp [hc, hmain]
  | exited => simp [Worker.active] at hact

theorem progress (h : WordsCounter) (k : Int) (J : List String) (s : State)
    (hk : 0 ≤ k) (hi : Inv h k J s) (hmain : s.mainDone = false) :
    ∃ a s', step h s a = some s' := by
  have hp := hi.sound
  cases hrun : s.run with
  | recvJob =>
    refine ⟨.run, ?_⟩
    simp only [step, hp, Bool.false_eq_true, if_false]
    unfold stepRun
    rw [hrun]
    cases hjobs : s.jobs with
    | nil => simp
    | cons url rest =>
      by_cases hurl : url = ""
      · simp [hurl]
      · by_cases hle : s.i ≤ s.pool.maxWorkers
        · simp [hurl, hle]
        · simp [hurl, hle]
  | sendUrl url =>
    have hf := hi.fwdOk
    have hio := hi.iOk
    have hsp := hi.spawnOk.1
    rw [hf] at hio
    simp only [hrun, pending, List.length_append, List.length_cons, List.length_nil] at hio
    push_cast at hio
    have hlen : 0 < s.workers.length := by omega
    obtain ⟨w, hw⟩ := exists_first s.workers hlen
    have hopen : s.pool.urls.closed = false := by
      have := hi.urlsOk; simpa [hrun, RunPc.stage] using this
    have hact := hi.openOk hopen w (List.mem_iff_getElem?.mpr ⟨0, hw⟩)
    obtain ⟨s', hs'⟩ := worker_progress h s 0 w hp hmain hw hact (Or.inr ⟨url, hrun⟩)
    exact ⟨.worker 0, s', hs'⟩
  | closeUrls =>
    refine ⟨.run, ?_⟩
    simp only [step, hp, Bool.false_eq_true, if_false]
    unfold stepRun
    rw [hrun]
    by_cases hc : s.pool.urls.closed = true
    · simp [hc]
    · simp [hc]
  | wait =>
    by_cases hwg : s.pool.wg = 0
    · refine ⟨.run, ?_⟩
      simp only [step, hp, Bool.false_eq_true, if_false]
      unfold stepRun
      rw [hrun]
      simp [hwg]
    · have hcount := hi.wgOk
      have hpos : 0 < s.workers.countP Worker.active := by omega
      obtain ⟨n, w, hw, hact⟩ := exists_active s.workers hpos
      have hclosed : s.pool.urls.closed = true := by
        have := hi.urlsOk; simpa [hrun, RunPc.stage] using this
      obtain ⟨s', hs'⟩ := worker_progress h s n w hp hmain hw hact (Or.inl hclosed)
      exact ⟨.worker n, s', hs'⟩
  | closeResults =>
    refine ⟨.run, ?_⟩
    simp only [step, hp, Bool.false_eq_true, if_false]
    unfold stepRun
    rw [hrun]
    by_cases hc : s.pool.results.closed = true
    · simp [hc]
    · simp [hc]
  | returned =>
    refine ⟨.main, ?_⟩
    have hclosed : s.pool.results.closed = true := by
      have := hi.closedOk; simpa [hrun, RunPc.stage] using this
    simp [step, hp, stepMain, hmain, hclosed]

/-- From a state of a run with `0 ≤ k` some schedule leads on to the end of `main`. -/
theorem completes_from (h : WordsCounter) (k : Int) (J : List String) (hk : 0 ≤ k) :
    ∀ (m : Nat) (s : State), measure s ≤ m → Inv h k J s →
      ∃ sched s', exec h s sched = some s' ∧ s'.mainDone = true := by
  intro m
  induction m with
  | zero =>
    intro s hm hi
    have hmain : s.mainDone = true := by
      by_contra hne
      simp [measure, hne] at hm
    exact ⟨[], s, rfl, hmain⟩
  | succ m ih =>
    intro s hm hi
    by_cases hmain : s.mainDone = true
    · exact ⟨[], s, rfl, hmain⟩
    · have hmain' : s.mainDone = false := by simpa using hmain
      obtain ⟨a, s1, hstep⟩ := progress h k J s hk hi hmain'
      have hlt := step_measure h s s1 a hstep
      obtain ⟨sched, s', hexec, hdone⟩ :=
        ih s1 (by omega) (step_inv h k J s s1 a hi hstep)
      exact ⟨a :: sched, s', by simp [exec, hstep, hexec], hdone⟩

/-! ### Run's loop as a function of the jobs -/

theorem nonEmpty_cons_empty (rest : List String) : nonEmpty ("" :: rest) = nonEmpty rest := by
  simp [nonEmpty]

theorem nonEmpty_cons (url : String) (rest : List String) (hurl : ¬ url = "") :
    nonEmpty (url :: rest) = url :: nonEmpty rest := by
  simp [nonEmpty, hurl]

theorem forwards_runLoop (k : Int) (jobs : List String) :
    ∀ i : Int, forwards (runLoop k i jobs) = nonEmpty jobs := by
  induction jobs with
  | nil => intro i; rfl
  | cons url rest ih =>
    intro i
    by_cases hurl : url = ""
    · subst hurl
      rw [nonEmpty_cons_empty]
      simpa [runLoop] using ih i
    · rw [nonEmpty_cons url rest hurl]
      by_cases hle : i ≤ k
      · simp only [runLoop, hurl, hle, if_true, if_false, forwards, ih (i + 1)]
      · simp only [runLoop, hurl, hle, if_true, if_false, forwards, ih i]

theorem runLoop_shape (k : Int) (jobs : List String) :
    ∀ i : Int, runLoop k i jobs
      = spawnEach ((nonEmpty jobs).take (k + 1 - i).toNat)
        ++ forwardEach ((nonEmpty jobs).drop (k + 1 - i).toNat) := by
  induction jobs with
  | nil => intro i; simp [runLoop, nonEmpty, spawnEach, forwardEach]
  | cons url rest ih =>
    intro i
    by_cases hurl : url = ""
    · subst hurl
      rw [nonEmpty_cons_empty]
      simpa [runLoop] using ih i
    · rw [nonEmpty_cons url rest hurl]
      by_cases hle : i ≤ k
      · have hn : (k + 1 - i).toNat = (k + 1 - (i + 1)).toNat + 1 := by omega
        simp only [runLoop, hurl, hle, if_true, if_false, hn, List.take_succ_cons,
          List.drop_succ_cons, spawnEach, List.cons_append, ih (i + 1)]
      · have hn : (k + 1 - i).toNat = 0 := by omega
        have := ih i
        simp only [hn, List.take_zero, List.drop_zero, spawnEach, List.nil_append] at this
        simp only [runLoop, hurl, hle, if_true, if_false, hn, List.take_zero, List.drop_zero,
          spawnEach, List.nil_append, forwardEach, this]

theorem spawns_spawnEach (us : List String) : spawns (spawnEach us) = us.length := by
  induction us with
  | nil => rfl
  | cons u us ih => simp [spawnEach, spawns, ih]

theorem spawns_forwardEach (us : List String) : spawns (forwardEach us) = 0 := by
  induction us with
  | nil => rfl
  | cons u us ih => simp [forwardEach, spawns, ih]

theorem spawns_runLoop (k : Int) (jobs : List String) :
    (spawns (runLoop k 0 jobs) : Int) = min ((nonEmpty jobs).length : Int) (max 0 (k + 1)) := by
  rw [runLoop_shape, spawns_append, spawns_spawnEach, spawns_forwardEach]
  simp only [List.length_take, add_zero, sub_zero]
  omega

theorem runLoop_insert_empty (k : Int) (before after : List String) :
    ∀ i : Int, runLoop k i (before ++ "" :: after) = runLoop k i (before ++ after) := by
  induction before with
  | nil => intro i; simp [runLoop]
  | cons url rest ih =>
    intro i
    by_cases hurl : url = ""
    · simp [runLoop, hurl, ih i]
    · by_cases hle : i ≤ k
      · simp [runLoop, hurl, hle, ih (i + 1)]
      · simp [runLoop, hurl, hle, ih i]

theorem runLoop_nonEmpty (k : Int) (jobs : List String) :
    ∀ i : Int, runLoop k i (nonEmpty jobs) = runLoop k i jobs := by
  induction jobs with
  | nil => intro i; rfl
  | cons url rest ih =>
    intro i
    by_cases hurl : url = ""
    · subst hurl
      rw [nonEmpty_cons_empty]
      simpa [runLoop] using ih i
    · rw [nonEmpty_cons url rest hurl]
      by_cases hle : i ≤ k
      · simp only [runLoop, hurl, hle, if_true, if_false, ih (i + 1)]
      · simp only [runLoop, hurl, hle, if_true, if_false, ih i]

/-! ### What the invariant gives -/

theorem pending_of_stage (pc : RunPc) (hst : 1 ≤ pc.stage) : pending pc = [] := by
  cases pc <;> simp [RunPc.stage] at hst <;> rfl

theorem inflightAll_of_none_active (h : WordsCounter) (ws : List Worker)
    (hz : ws.countP Worker.active = 0) : inflightAll h ws = [] := by
  induction ws with
  | nil => rfl
  | cons w ws ih =>
    rw [List.countP_cons] at hz
    cases w with
    | exited => simpa [inflightAll, inflight] using ih (by omega)
    | recvUrl => simp [Worker.active] at hz
    | call url => simp [Worker.active] at hz
    | sendResult r => simp [Worker.active] at hz

/-- The non-empty jobs are those forwarded, the one being sent and those still to come. -/
theorem Inv.jobs_split (h : WordsCounter) (k : Int) (J : List String) (s : State)
    (hi : Inv h k J s) : nonEmpty J = s.forwarded ++ pending s.run ++ nonEmpty s.jobs := by
  have := congrArg forwards hi.traceOk
  rw [forwards_append, forwards_runLoop, forwards_runLoop, hi.fwdOk] at this
  exact this

/-- Once the results channel is closed every non-empty job has been forwarded, no worker
runs, and the results received are those of the forwarded jobs. -/
theorem Inv.closed (h : WordsCounter) (k : Int) (J : List String) (s : State)
    (hi : Inv h k J s) (hc : s.pool.results.closed = true) :
    s.run = .returned ∧ s.jobs = [] ∧ s.pool.urls.closed = true ∧ s.pool.wg = 0
      ∧ s.workers.countP Worker.active = 0
      ∧ s.forwarded = nonEmpty J
      ∧ s.emitted.Perm (outcomes h (nonEmpty J)) := by
  have hst : 4 ≤ s.run.stage := by
    have := hi.closedOk
    rw [hc] at this
    simpa using this.symm
  have hjobs := hi.jobsOk (by omega)
  have hwg := hi.waitOk (by omega)
  have hcount : s.workers.countP Worker.active = 0 := by
    have := hi.wgOk
    omega
  have hfwd : s.forwarded = nonEmpty J := by
    have := hi.jobs_split
    rw [pending_of_stage s.run (by omega), hjobs] at this
    simpa [nonEmpty] using this.symm
  refine ⟨?_, hjobs, ?_, hwg, hcount, hfwd, ?_⟩
  · cases hrun : s.run <;> simp [hrun, RunPc.stage] at hst
    rfl
  · have := hi.urlsOk
    simpa [show 2 ≤ s.run.stage by omega] using this
  · have hres := hi.resultsOk
    rw [inflightAll_of_none_active h s.workers hcount, hfwd] at hres
    simp only [Multiset.coe_nil, add_zero] at hres
    exact (Multiset.coe_eq_coe.mp hres).symm

theorem countSum_perm (a b : List Result) (hp : a.Perm b) : countSum a = countSum b := by
  unfold countSum
  exact (hp.map Result.Count).sum_eq

/-! ### The reader -/

theorem ReadString_line (err : ReadErr) (input : List Char)
    (hr : (ReadString '\n' err input).2.1 = none) :
    chunks input = (ReadString '\n' err input).1 :: chunks (ReadString '\n' err input).2.2
      ∧ (ReadString '\n' err input).2.2.length < input.length := by
  induction input with
  | nil => simp [ReadString] at hr
  | cons c cs ih =>
    by_cases hc : c = '\n'
    · simp [ReadString, chunks, hc]
    · simp only [ReadString, hc, if_false] at hr ⊢
      obtain ⟨h1, h2⟩ := ih hr
      refine ⟨?_, ?_⟩
      · simp only [chunks, hc, if_false, h1]
      · simp only [List.length_cons]
        omega

theorem ReadString_end (err : ReadErr) (input : List Char) (e : ReadErr)
    (hr : (ReadString '\n' err input).2.1 = some e) :
    e = err ∧ chunks input = [(ReadString '\n' err input).1] := by
  induction input with
  | nil =>
    simp only [ReadString, Option.some.injEq] at hr
    exact ⟨hr.symm, rfl⟩
  | cons c cs ih =>
    by_cases hc : c = '\n'
    · simp [ReadString, hc] at hr
    · simp only [ReadString, hc, if_false] at hr ⊢
      obtain ⟨h1, h2⟩ := ih hr
      exact ⟨h1, by simp only [chunks, hc, if_false, h2]⟩

/-- With more fuel than the text has characters the loop of the reader ends, having
sent the value of each piece of the text. -/
theorem startReaderLoop_eq (err : ReadErr) :
    ∀ (fuel : Nat) (input : List Char), input.length < fuel →
      startReaderLoop err fuel input
        = some ⟨(chunks input).map lineValue, readerLog err, true⟩ := by
  intro fuel
  induction fuel with
  | zero => intro input hlt; omega
  | succ fuel ih =>
    intro input hlt
    simp only [startReaderLoop]
    cases hr : (ReadString '\n' err input).2.1 with
    | none =>
      obtain ⟨h1, h2⟩ := ReadString_line err input hr
      have hrec := ih (ReadString '\n' err input).2.2 (by omega)
      rw [hrec, h1]
      simp only [Option.map_some', List.map_cons, lineValue]
    | some e =>
      obtain ⟨h1, h2⟩ := ReadString_end err input e hr
      subst h1
      simp only [h2, List.map_cons, List.map_nil, lineValue, readerLog]
      split <;> rfl

theorem startReader_eq (source : Source) :
    startReader source
      = some ⟨(chunks source.data).map lineValue, readerLog source.err, true⟩ :=
  startReaderLoop_eq source.err _ source.data (by omega)

theorem chunks_length (text : List Char) : (chunks text).length = text.count '\n' + 1 := by
  induction text with
  | nil => rfl
  | cons c cs ih =>
    by_cases hc : c = '\n'
    · subst hc
      simp [chunks, ih]
    · have hne : ¬ (c == '\n') = true := by simpa using hc
      rw [List.count_cons]
      simp only [chunks, hc, if_false, hne]
      cases hch : chunks cs with
      | nil => simp [hch] at ih
      | cons x xs =>
        rw [hch] at ih
        simpa using ih

theorem inputLines_eq_nil (text : List Char) (hn : inputLines text = []) : text = [] := by
  cases text with
  | nil => rfl
  | cons c cs =>
    by_cases hc : c = '\n'
    · simp [inputLines, hc] at hn
    · simp only [inputLines, hc, if_false] at hn
      split at hn <;> simp at hn

/-- The pieces of a text are its lines, and one empty piece more when the text is empty
or ends with `\n`. -/
theorem chunks_eq_inputLines (text : List Char) :
    chunks text
      = inputLines text ++ (if text = [] ∨ text.getLast? = some '\n' then [[]] else []) := by
  induction text with
  | nil => simp [chunks, inputLines]
  | cons c cs ih =>
    by_cases hc : c = '\n'
    · subst hc
      have hcond : (('\n' :: cs = [] ∨ ('\n' :: cs).getLast? = some '\n')
          ↔ (cs = [] ∨ cs.getLast? = some '\n')) := by
        cases cs with
        | nil => simp
        | cons d ds => simp [List.getLast?_cons_cons]
      simp only [chunks, inputLines, if_true, ih, hcond, List.cons_append]
    · cases cs with
      | nil =>
        have hc' : ¬ '\n' = c := fun hh => hc hh.symm
        simp [chunks, inputLines, hc, hc']
      | cons d ds =>
        have hcond : ((c :: d :: ds = [] ∨ (c :: d :: ds).getLast? = some '\n')
            ↔ (d :: ds = [] ∨ (d :: ds).getLast? = some '\n')) := by
          simp [List.getLast?_cons_cons]
        simp only [chunks, inputLines, hc, if_false, hcond] at ih ⊢
        cases hl : inputLines (d :: ds) with
        | nil => exact absurd (inputLines_eq_nil _ hl) (by simp)
        | cons x xs =>
          simp only [inputLines] at hl
          simp only [hl] at ih
          simp only [ih, hl, List.cons_append]

/-- What `TrimSpace` returns is the text between a leading and a trailing run of white
space, and neither starts nor ends with white space. -/
theorem TrimSpace_spec (s : List Char) :
    ∃ pre post, s = pre ++ TrimSpace s ++ post
      ∧ (∀ c ∈ pre, isSpace c = true) ∧ (∀ c ∈ post, isSpace c = true)
      ∧ (∀ c, (TrimSpace s).head? = some c → isSpace c = false)
      ∧ (∀ c, (TrimSpace s).getLast? = some c → isSpace c = false) := by
  have h1 := List.takeWhile_append_dropWhile isSpace s
  have h2 := List.takeWhile_append_dropWhile isSpace (s.dropWhile isSpace).reverse
  have h3 : s.dropWhile isSpace
      = TrimSpace s ++ ((s.dropWhile isSpace).reverse.takeWhile isSpace).reverse := by
    have := congrArg List.reverse h2
    simp only [List.reverse_append, List.reverse_reverse] at this
    exact this.symm
  have hlast : ∀ c, (TrimSpace s).getLast? = some c → isSpace c = false := by
    intro c hc
    simp only [TrimSpace, List.getLast?_reverse] at hc
    have := List.head?_dropWhile_not isSpace (s.dropWhile isSpace).reverse
    rw [hc] at this
    simpa using this
  refine ⟨s.takeWhile isSpace, ((s.dropWhile isSpace).reverse.takeWhile isSpace).reverse,
    ?_, ?_, ?_, ?_, hlast⟩
  · rw [List.append_assoc, ← h3, h1]
  · intro c hc
    exact List.mem_takeWhile_imp hc
  · intro c hc
    rw [List.mem_reverse] at hc
    exact List.mem_takeWhile_imp hc
  · intro c hc
    have hne : TrimSpace s ≠ [] := by
      intro hnil
      simp [hnil] at hc
    have hh : (s.dropWhile isSpace).head? = some c := by
      rw [h3, List.head?_append_of_ne_nil _ hne, hc]
    have := List.head?_dropWhile_not isSpace s
    rw [hh] at this
    simpa using this

theorem TrimSpace_blank (s : List Char) (hs : ∀ c ∈ s, isSpace c = true) : TrimSpace s = [] := by
  have : s.dropWhile isSpace = [] := List.dropWhile_eq_nil_iff.mpr hs
  simp [TrimSpace, this]

/-! ## The claims -/

/-- C1: for a pool with worker count at least 1, any jobs and any handler, the run comes
to its end (some schedule ends `main`, no schedule is longer than `5 * jobs + 6` steps,
and a run that has not ended `main` can always take a step), and once the results channel
is closed, so whenever `main` has left its loop, `total` is the sum, in Go's `int`, of
the counts the handler returns for the non-empty jobs on which it does not fail, each
occurrence counted once; that is the mathematical sum whenever it fits an `int`. -/
theorem total_eq_sum_of_successful_counts (countWords : WordsCounter) (maxWorkers : Int)
    (jobs : List String) (hk : 1 ≤ maxWorkers) :
    (∃ sched s, exec countWords (init maxWorkers jobs) sched = some s ∧ s.mainDone = true)
    ∧ ∀ sched s, exec countWords (init maxWorkers jobs) sched = some s →
        sched.length ≤ 5 * jobs.length + 6
        ∧ (s.mainDone = false → ∃ a s', step countWords s a = some s')
        ∧ (s.mainDone = true → s.pool.results.closed = true)
        ∧ (s.pool.results.closed = true →
            s.total = wrapInt (countSum (outcomes countWords (nonEmpty jobs)))
            ∧ (-9223372036854775808 ≤ countSum (outcomes countWords (nonEmpty jobs)) →
                countSum (outcomes countWords (nonEmpty jobs)) < 9223372036854775808 →
                s.total = countSum (outcomes countWords (nonEmpty jobs)))) := by
  have hk0 : (0 : Int) ≤ maxWorkers := by omega
  refine ⟨?_, ?_⟩
  · exact completes_from countWords maxWorkers jobs hk0 _ _ (Nat.le_refl _)
      (init_inv countWords maxWorkers jobs)
  · intro sched s hs
    have hi := reach_inv countWords maxWorkers jobs sched s hs
    have hm := exec_measure countWords sched _ _ hs
    have hinit : measure (init maxWorkers jobs) = 5 * jobs.length + 6 := by
      simp [measure, init, RunPc.weight]
    have htotal : s.pool.results.closed = true →
        s.total = wrapInt (countSum (outcomes countWords (nonEmpty jobs))) := by
      intro hc
      have hperm := (hi.closed countWords maxWorkers jobs s hc).2.2.2.2.2.2
      rw [hi.totalOk, countSum_perm _ _ hperm]
    refine ⟨by omega, progress countWords maxWorkers jobs s hk0 hi, hi.mainOk, ?_⟩
    intro hc
    refine ⟨htotal hc, ?_⟩
    intro h1 h2
    rw [htotal hc, wrapInt_of_range _ h1 h2]

/-- C1 at the scenario: worker count 2, jobs `http://a`, the empty string, `http://b`. -/
theorem total_eq_sum_scenario :
    (1 : Int) ≤ 2
    ∧ exec fakeHandler (init 2 scenarioJobs) scenarioSchedule = some scenarioEnd
    ∧ scenarioEnd.total = wrapInt (countSum (outcomes fakeHandler (nonEmpty scenarioJobs)))
    ∧ scenarioEnd.total = 3 :=
  ⟨by decide, by decide,
    ((((total_eq_sum_of_successful_counts fakeHandler 2 scenarioJobs (by decide)).2
      scenarioSchedule scenarioEnd (by decide)).2.2.2) rfl).1, rfl⟩

/-- C2: for a pool with worker count at least 1, any jobs and any handler, some schedule
runs the program to its end, and once the results channel is closed the results `main`
has received are, up to order, exactly one `(url, count)` for each non-empty job on which
the handler succeeds, with the count it returned; a job on which it fails gives no result,
and every non-empty job, also one after a failure, has been taken by a worker. In the
scenario that is the one result `(http://a, 3)` and total 3. -/
theorem results_are_successful_jobs (countWords : WordsCounter) (maxWorkers : Int)
    (jobs : List String) (hk : 1 ≤ maxWorkers) :
    (∃ sched s, exec countWords (init maxWorkers jobs) sched = some s
        ∧ s.pool.results.closed = true)
    ∧ (∀ sched s, exec countWords (init maxWorkers jobs) sched = some s →
        s.pool.results.closed = true →
          s.emitted.Perm (outcomes countWords (nonEmpty jobs))
          ∧ s.forwarded = nonEmpty jobs)
    ∧ (∀ url count, countWords url "Go" = .ok count →
        outcome countWords url = [⟨url, count⟩])
    ∧ (∀ url e, countWords url "Go" = .error e → outcome countWords url = [])
    ∧ (∀ before after, outcomes countWords (before ++ after)
        = outcomes countWords before ++ outcomes countWords after)
    ∧ (∀ sched s, exec fakeHandler (init 2 scenarioJobs) sched = some s →
        s.pool.results.closed = true → s.emitted = [⟨"http://a", 3⟩] ∧ s.total = 3) := by
  have hk0 : (0 : Int) ≤ maxWorkers := by omega
  refine ⟨?_, ?_, ?_, ?_, ?_, ?_⟩
  · obtain ⟨sched, s, hs, hdone⟩ := completes_from countWords maxWorkers jobs hk0 _ _
      (Nat.le_refl _) (init_inv countWords maxWorkers jobs)
    exact ⟨sched, s, hs, (reach_inv countWords maxWorkers jobs sched s hs).mainOk hdone⟩
  · intro sched s hs hc
    have hcl := (reach_inv countWords maxWorkers jobs sched s hs).closed _ _ _ _ hc
    exact ⟨hcl.2.2.2.2.2.2, hcl.2.2.2.2.2.1⟩
  · intro url count hcall
    simp [outcome, hcall]
  · intro url e hcall
    simp [outcome, hcall]
  · exact outcomes_append countWords
  · intro sched s hs hc
    have hi := reach_inv fakeHandler 2 scenarioJobs sched s hs
    have hperm := (hi.closed _ _ _ _ hc).2.2.2.2.2.2
    have hout : outcomes fakeHandler (nonEmpty scenarioJobs) = [⟨"http://a", 3⟩] := by decide
    rw [hout] at hperm
    have hem : s.emitted = [⟨"http://a", 3⟩] := List.perm_singleton.mp hperm
    refine ⟨hem, ?_⟩
    rw [hi.totalOk, hem]
    decide

/-- C2 at the scenario, under the schedule `scenarioSchedule`; the jobs are what the
reader sends for the three lines of the input. -/
theorem results_scenario :
    (1 : Int) ≤ 2
    ∧ mainInit 2 ⟨"http://a\n\nhttp://b".toList, .EOF⟩ = some (init 2 scenarioJobs)
    ∧ exec fakeHandler (init 2 scenarioJobs) scenarioSchedule = some scenarioEnd
    ∧ scenarioEnd.emitted = [⟨"http://a", 3⟩] ∧ scenarioEnd.total = 3
    ∧ scenarioEnd.logged = ["http://b"] :=
  ⟨by decide, by decide, by decide,
    ((results_are_successful_jobs fakeHandler 2 scenarioJobs (by decide)).2.2.2.2.2
      scenarioSchedule scenarioEnd (by decide) rfl).1,
    ((results_are_successful_jobs fakeHandler 2 scenarioJobs (by decide)).2.2.2.2.2
      scenarioSchedule scenarioEnd (by decide) rfl).2, rfl⟩

/-- C3: `Pool.Run` skips empty jobs. Receiving an empty job changes nothing but the jobs
still to come (the counter `i`, the workers and what has been forwarded stay as they
are); the urls `Run` forwards are the non-empty jobs in their order; and putting an
empty string in or taking it out anywhere in the jobs changes neither the forwards nor
the workers started. Every run, whatever the schedule, follows this loop: what `Run` has
done is a prefix of it, and the non-empty jobs are those taken by a worker, the one
being sent and those still to come. -/
theorem run_skips_empty_jobs (maxWorkers : Int) (jobs : List String) :
    (∀ (countWords : WordsCounter) (s : State) (rest : List String),
        s.panicked = false → s.run = .recvJob → s.jobs = "" :: rest →
          step countWords s .run = some { s with jobs := rest })
    ∧ forwards (runLoop maxWorkers 0 jobs) = nonEmpty jobs
    ∧ (∀ (i : Int) (before after : List String),
        runLoop maxWorkers i (before ++ "" :: after) = runLoop maxWorkers i (before ++ after))
    ∧ runLoop maxWorkers 0 (nonEmpty jobs) = runLoop maxWorkers 0 jobs
    ∧ (∀ (countWords : WordsCounter) (sched : List Action) (s : State),
        exec countWords (init maxWorkers jobs) sched = some s →
          runLoop maxWorkers 0 jobs = s.trace ++ runLoop maxWorkers s.i s.jobs
          ∧ nonEmpty jobs = s.forwarded ++ pending s.run ++ nonEmpty s.jobs
          ∧ s.workers.length = spawns s.trace
          ∧ s.i = (spawns s.trace : Int)) := by
  refine ⟨?_, forwards_runLoop maxWorkers jobs 0, ?_, runLoop_nonEmpty maxWorkers jobs 0, ?_⟩
  · intro countWords s rest hp hrun hjobs
    simp [step, hp, stepRun, hrun, hjobs]
  · intro i before after
    exact runLoop_insert_empty maxWorkers before after i
  · intro countWords sched s hs
    have hi := reach_inv countWords maxWorkers jobs sched s hs
    refine ⟨hi.traceOk, hi.jobs_split, hi.spawnOk.2.symm, ?_⟩
    rw [← hi.spawnOk.1, hi.spawnOk.2]

/-- C3 at the scenario: the empty job between the two urls leaves no trace. -/
theorem run_skips_empty_jobs_scenario :
    exec fakeHandler (init 2 scenarioJobs) scenarioSchedule = some scenarioEnd
    ∧ forwards (runLoop 2 0 scenarioJobs) = ["http://a", "http://b"]
    ∧ runLoop 2 0 scenarioJobs = scenarioEnd.trace ++ runLoop 2 scenarioEnd.i scenarioEnd.jobs
    ∧ scenarioEnd.workers.length = spawns scenarioEnd.trace :=
  ⟨by decide,
    (run_skips_empty_jobs 2 scenarioJobs).2.1.trans (by decide),
    ((run_skips_empty_jobs 2 scenarioJobs).2.2.2.2 fakeHandler scenarioSchedule scenarioEnd
      (by decide)).1,
    ((run_skips_empty_jobs 2 scenarioJobs).2.2.2.2 fakeHandler scenarioSchedule scenarioEnd
      (by decide)).2.2.1⟩

/-- C4: for every integer `maxWorkers` and every job sequence, `Pool.Run` starts a worker
at each of the first `maxWorkers + 1` non-empty jobs and at no other job, so the number
of workers started is `min n (max 0 (maxWorkers + 1))` for `n` non-empty jobs, and at
most `maxWorkers + 1` when `0 ≤ maxWorkers`. In every run the workers started so far are
those of the non-empty jobs received so far, and all of them once the jobs are used up. -/
theorem spawns_at_first_maxWorkers_plus_one (maxWorkers : Int) (jobs : List String) :
    runLoop maxWorkers 0 jobs
      = spawnEach ((nonEmpty jobs).take (maxWorkers + 1).toNat)
        ++ forwardEach ((nonEmpty jobs).drop (maxWorkers + 1).toNat)
    ∧ (spawns (runLoop maxWorkers 0 jobs) : Int)
        = min ((nonEmpty jobs).length : Int) (max 0 (maxWorkers + 1))
    ∧ (0 ≤ maxWorkers → (spawns (runLoop maxWorkers 0 jobs) : Int) ≤ maxWorkers + 1)
    ∧ (∀ (countWords : WordsCounter) (sched : List Action) (s : State),
        exec countWords (init maxWorkers jobs) sched = some s →
          s.workers.length = spawns s.trace
          ∧ s.i = (s.workers.length : Int)
          ∧ (s.workers.length : Int)
              = min ((s.forwarded ++ pending s.run).length : Int) (max 0 (maxWorkers + 1))
          ∧ (s.workers.length : Int)
              ≤ min ((nonEmpty jobs).length : Int) (max 0 (maxWorkers + 1))
          ∧ (s.jobs = [] → (s.workers.length : Int)
              = min ((nonEmpty jobs).length : Int) (max 0 (maxWorkers + 1)))) := by
  have hshape := runLoop_shape maxWorkers jobs 0
  simp only [sub_zero] at hshape
  have hcount := spawns_runLoop maxWorkers jobs
  refine ⟨hshape, hcount, ?_, ?_⟩
  · intro hk
    omega
  · intro countWords sched s hs
    have hi := reach_inv countWords maxWorkers jobs sched s hs
    have hsplit := congrArg List.length hi.jobs_split
    have hio := hi.iOk
    have hlen := hi.spawnOk.1
    rw [hi.fwdOk] at hio
    simp only [List.length_append] at hsplit hio ⊢
    refine ⟨hi.spawnOk.2.symm, hlen.symm, ?_, ?_, ?_⟩
    · rw [hlen]; exact_mod_cast hio
    · push_cast at hio
      omega
    · intro hjobs
      rw [hjobs] at hsplit
      simp only [nonEmpty, List.filter_nil, List.length_nil, add_zero] at hsplit
      push_cast at hio
      simp only [nonEmpty]
      omega

/-- C4 at worker count 1 and three urls: workers are started at the first two. -/
theorem spawns_at_first_two_of_three :
    runLoop 1 0 ["u1", "", "u2", "u3"]
      = [.spawn, .forward "u1", .spawn, .forward "u2", .forward "u3"]
    ∧ (spawns (runLoop 1 0 ["u1", "", "u2", "u3"]) : Int) = 2
    ∧ (spawns (runLoop 1 0 ["u1", "", "u2", "u3"]) : Int) ≤ 1 + 1 :=
  ⟨(spawns_at_first_maxWorkers_plus_one 1 ["u1", "", "u2", "u3"]).1.trans (by decide),
    (spawns_at_first_maxWorkers_plus_one 1 ["u1", "", "u2", "u3"]).2.1.trans (by decide),
    (spawns_at_first_maxWorkers_plus_one 1 ["u1", "", "u2", "u3"]).2.2.1 (by decide)⟩

/-- C5: with worker count 1 and two urls `Pool.Run` starts two workers, one more than
`maxWorkers`, and a run reaches a state where both are about to call the handler, so the
two jobs are not processed one after the other. -/
theorem two_workers_for_maxWorkers_one :
    runLoop 1 0 ["u1", "u2"] = [.spawn, .forward "u1", .spawn, .forward "u2"]
    ∧ spawns (runLoop 1 0 ["u1", "u2"]) = 2
    ∧ (exec fakeHandler (init 1 ["u1", "u2"]) [.run, .worker 0, .run, .worker 1]).map
        (fun s => (s.pool.maxWorkers, s.workers, s.pool.wg))
      = some (1, [Worker.call "u1", Worker.call "u2"], 2) := by
  decide

/-- C6, as the claim states it, fails at worker count 0: `NewPool 0` is a pool whose
stored worker count is 0, not a positive one, and the pool is usable: the program runs
one job on it to the end. -/
theorem NewPool_zero_not_clamped :
    (NewPool 0).maxWorkers = 0
    ∧ ¬ (0 < (NewPool 0).maxWorkers)
    ∧ (exec fakeHandler (init 0 ["http://a"])
          [.run, .worker 0, .worker 0, .worker 0, .run, .run, .worker 0, .run, .run, .main]).map
        (fun s => (s.pool.maxWorkers, s.mainDone, s.emitted, s.panicked))
      = some (0, true, [⟨"http://a", 3⟩], false) := by
  decide

/-- C6 as amended: for every integer `maxWorkers`, `NewPool` stores it unchanged, also when
it is zero or negative, with both channels open and an empty wait group; the program starts
with that pool and no worker. -/
theorem NewPool_stores_maxWorkers (maxWorkers : Int) (jobs : List String) :
    (NewPool maxWorkers).maxWorkers = maxWorkers
    ∧ (NewPool maxWorkers).wg = 0
    ∧ (NewPool maxWorkers).urls.closed = false
    ∧ (NewPool maxWorkers).results.closed = false
    ∧ (init maxWorkers jobs).pool = NewPool maxWorkers
    ∧ (init maxWorkers jobs).workers = []
    ∧ (init maxWorkers jobs).trace = [] :=
  ⟨rfl, rfl, rfl, rfl, rfl, rfl, rfl⟩

/-- C7: with worker count 0 `Pool.Run` starts a worker at the first non-empty job, and for
every handler and every jobs some schedule runs the program to its end; on the one job
`http://a` the worker takes the job and `main` ends with total 3. -/
theorem zero_maxWorkers_spawns_one (countWords : WordsCounter) (jobs : List String) :
    runLoop 0 0 jobs
      = spawnEach ((nonEmpty jobs).take 1) ++ forwardEach ((nonEmpty jobs).drop 1)
    ∧ (∃ sched s, exec countWords (init 0 jobs) sched = some s ∧ s.mainDone = true
        ∧ s.forwarded = nonEmpty jobs)
    ∧ (exec fakeHandler (init 0 ["http://a"])
          [.run, .worker 0, .worker 0, .worker 0, .run, .run, .worker 0, .run, .run, .main]).map
        (fun s => (s.workers.length, s.forwarded, s.mainDone, s.total))
      = some (1, ["http://a"], true, 3) := by
  refine ⟨?_, ?_, by decide⟩
  · simpa using runLoop_shape 0 jobs 0
  · obtain ⟨sched, s, hs, hdone⟩ := completes_from countWords 0 jobs (le_refl 0) _ _
      (Nat.le_refl _) (init_inv countWords 0 jobs)
    have hi := reach_inv countWords 0 jobs sched s hs
    exact ⟨sched, s, hs, hdone, (hi.closed _ _ _ _ (hi.mainOk hdone)).2.2.2.2.2.1⟩

theorem all_exited_of_none_active (ws : List Worker) (hz : ws.countP Worker.active = 0) :
    ∀ w ∈ ws, w = Worker.exited := by
  intro w hw
  have := List.countP_eq_zero.mp hz w hw
  cases w <;> simp [Worker.active] at this ⊢

/-- C9: in every state a run of the program reaches, the results channel is closed only
when the job-intake channel is closed, the wait group is at zero, every worker started
has exited and `Run` has returned; the job-intake channel is closed only when no job is
left to receive or to send; `Run` stands before `close(pool.results)` only after it has
closed the job-intake channel and the wait group has reached zero; the wait group counts
the workers still running; `close(pool.results)` has run once if the results channel is
closed and not at all otherwise; nothing has panicked. With `0 ≤ maxWorkers` the run can
always go on to the point where the results channel is closed. -/
theorem results_closed_last (countWords : WordsCounter) (maxWorkers : Int)
    (jobs : List String) (sched : List Action) (s : State)
    (hs : exec countWords (init maxWorkers jobs) sched = some s) :
    (s.pool.results.closed = true →
        s.pool.urls.closed = true ∧ s.pool.wg = 0 ∧ (∀ w ∈ s.workers, w = Worker.exited)
        ∧ s.jobs = [] ∧ s.run = .returned)
    ∧ (s.pool.urls.closed = true → s.jobs = [] ∧ pending s.run = [] ∧ 2 ≤ s.run.stage)
    ∧ (s.run = .closeResults →
        s.pool.urls.closed = true ∧ s.pool.wg = 0 ∧ s.pool.results.closed = false)
    ∧ s.pool.wg = (s.workers.countP Worker.active : Int)
    ∧ s.closes = (if s.pool.results.closed then 1 else 0)
    ∧ s.panicked = false
    ∧ (0 ≤ maxWorkers → ∃ sched' s', exec countWords s sched' = some s'
        ∧ s'.pool.results.closed = true ∧ s'.closes = 1) := by
  have hi := reach_inv countWords maxWorkers jobs sched s hs
  refine ⟨?_, ?_, ?_, hi.wgOk, hi.closesOk, hi.sound, ?_⟩
  · intro hc
    have hcl := hi.closed _ _ _ _ hc
    exact ⟨hcl.2.2.1, hcl.2.2.2.1, all_exited_of_none_active _ hcl.2.2.2.2.1, hcl.2.1, hcl.1⟩
  · intro hc
    have hst : 2 ≤ s.run.stage := by
      have := hi.urlsOk
      rw [hc] at this
      simpa using this.symm
    exact ⟨hi.jobsOk (by omega), pending_of_stage _ (by omega), hst⟩
  · intro hrun
    have h1 := hi.urlsOk
    have h2 := hi.closedOk
    have h3 := hi.waitOk
    simp only [hrun, RunPc.stage] at h1 h2 h3
    exact ⟨by simpa using h1, h3 (by omega), by simpa using h2⟩
  · intro hk
    obtain ⟨sched', s', hs', hdone⟩ :=
      completes_from countWords maxWorkers jobs hk _ s (Nat.le_refl _) hi
    have hi' := exec_inv countWords maxWorkers jobs sched' s s' hi hs'
    have hc := hi'.mainOk hdone
    refine ⟨sched', s', hs', hc, ?_⟩
    rw [hi'.closesOk, hc]
    rfl

/-- C9 at the scenario: at its end both channels are closed, after one `close` of the
results channel, and both workers have exited. -/
theorem results_closed_last_scenario :
    exec fakeHandler (init 2 scenarioJobs) scenarioSchedule = some scenarioEnd
    ∧ scenarioEnd.pool.results.closed = true
    ∧ scenarioEnd.pool.urls.closed = true ∧ scenarioEnd.pool.wg = 0
    ∧ scenarioEnd.closes = 1 :=
  ⟨by decide, rfl,
    ((results_closed_last fakeHandler 2 scenarioJobs scenarioSchedule scenarioEnd
      (by decide)).1 rfl).1,
    ((results_closed_last fakeHandler 2 scenarioJobs scenarioSchedule scenarioEnd
      (by decide)).1 rfl).2.1,
    (results_closed_last fakeHandler 2 scenarioJobs scenarioSchedule scenarioEnd
      (by decide)).2.2.2.2.1⟩

theorem chunks_concat (text : List Char) : (chunks text).foldr (fun a b => a ++ b) [] = text := by
  induction text with
  | nil => rfl
  | cons c cs ih =>
    by_cases hc : c = '\n'
    · simp [chunks, hc, ih]
    · simp only [chunks, hc, if_false]
      cases hch : chunks cs with
      | nil => rw [hch] at ih; simp [← ih]
      | cons x xs => rw [hch] at ih; simp [← ih]

theorem inputLines_concat (text : List Char) :
    (inputLines text).foldr (fun a b => a ++ b) [] = text := by
  induction text with
  | nil => rfl
  | cons c cs ih =>
    by_cases hc : c = '\n'
    · simp [inputLines, hc, ih]
    · simp only [inputLines, hc, if_false]
      cases hch : inputLines cs with
      | nil => rw [hch] at ih; simp [← ih]
      | cons x xs => rw [hch] at ih; simp [← ih]

/-- C8, as the claim states it, fails on the one-line text `a\n`: it has the one line
`a\n`, and `startReader` sends two values, `a` and the empty string. -/
theorem startReader_sends_extra_value :
    inputLines ['a', '\n'] = [['a', '\n']]
    ∧ (startReader ⟨['a', '\n'], .EOF⟩).map (fun out => out.sent) = some ["a", ""]
    ∧ (startReader ⟨['a', '\n'], .EOF⟩).map (fun out => out.sent)
        ≠ some ((inputLines ['a', '\n']).map lineValue) := by
  decide

/-- C8 as amended: on a text read to its end without an error `startReader` returns with
its channel closed and nothing logged, having sent in order one value for each line of
the text, the line without its leading and trailing white space (so the empty string for
a line of white space only), and after them one empty string more when the text is empty
or ends with `\n`. The lines are the text cut after each `\n`; a value is its line between
a leading and a trailing run of white space and neither starts nor ends with one. -/
theorem startReader_sends_lines (text : List Char) :
    startReader ⟨text, .EOF⟩
      = some ⟨(inputLines text).map lineValue
          ++ (if text = [] ∨ text.getLast? = some '\n' then [""] else []), [], true⟩
    ∧ (inputLines text).foldr (fun a b => a ++ b) [] = text
    ∧ (∀ line, ∃ pre post, line = pre ++ (lineValue line).data ++ post
        ∧ (∀ c ∈ pre, isSpace c = true) ∧ (∀ c ∈ post, isSpace c = true)
        ∧ (∀ c, (lineValue line).data.head? = some c → isSpace c = false)
        ∧ (∀ c, (lineValue line).data.getLast? = some c → isSpace c = false))
    ∧ (∀ line, (∀ c ∈ line, isSpace c = true) → lineValue line = "") := by
  refine ⟨?_, inputLines_concat text, fun line => TrimSpace_spec line, ?_⟩
  · rw [startReader_eq]
    simp only [chunks_eq_inputLines, List.map_append, readerLog, true_or, if_true]
    split <;> rfl
  · intro line hline
    simp only [lineValue, TrimSpace_blank line hline]

/-- C8 as amended, on a text of three lines, the second blank and the last without
`\n`. -/
theorem startReader_sends_lines_example :
    startReader ⟨" http://a \n\t\nhttp://b".toList, .EOF⟩
      = some ⟨["http://a", "", "http://b"], [], true⟩
    ∧ lineValue ['\t', '\n'] = "" :=
  ⟨(startReader_sends_lines " http://a \n\t\nhttp://b".toList).1.trans (by decide),
    (startReader_sends_lines []).2.2.2 ['\t', '\n'] (by decide)⟩

/-- C10: on a text with `m` characters `\n`, read to its end without an error,
`startReader` sends exactly `m + 1` values: the value of each piece that ends at a `\n`
and last the value of the text after the last `\n`. So it sends at least one value, the
empty text gives the one value `""`, and a text that ends with `\n` gives `""` as its
last value. -/
theorem startReader_sends_count_plus_one (text : List Char) :
    (∃ out, startReader ⟨text, .EOF⟩ = some out
        ∧ out.sent = (chunks text).map lineValue
        ∧ out.sent.length = text.count '\n' + 1
        ∧ 1 ≤ out.sent.length
        ∧ out.closed = true)
    ∧ (chunks text).foldr (fun a b => a ++ b) [] = text
    ∧ (startReader ⟨[], .EOF⟩).map (fun out => out.sent) = some [""]
    ∧ (startReader ⟨text ++ ['\n'], .EOF⟩).map (fun out => out.sent.getLast?)
        = some (some "") := by
  refine ⟨⟨_, startReader_eq ⟨text, .EOF⟩, rfl, ?_, ?_, rfl⟩, chunks_concat text, by decide, ?_⟩
  · simp [chunks_length]
  · simp [chunks_length]
  · rw [startReader_eq]
    simp only [Option.map_some', chunks_eq_inputLines, List.getLast?_append, List.map_append]
    simp [lineValue, TrimSpace]

end Counter
